import Mathlib

/-!
Verification of the nums block-distributed array engine against its
natural-language specification.

The repository exposes two Python modules under `src/`:
`nums/numpy/api.py` (the user-facing array API wrappers) and
`nums/core/application_manager.py` (the application singleton lifecycle).
Those are embedded directly.  The engine internals they call
(`BlockArray`, `ArrayApplication`, the device grid in `nums/core/grid/grid.py`,
and `ComputeManager`) are not part of the visible sources; where a claim
depends on them, the corresponding definition is modelled from the
specification and marked `Modelled from the spec:` in its doc comment.
-/

namespace Nums

/-! ### Block-tiling geometry

An axis of extent `dim` partitioned with block size `b` is covered by
`numBlocks dim b` blocks; block `t` covers global indices
`[t * b, t * b + blockExtent dim b t)`, and boundary blocks may be smaller
than `b`, never larger. -/

/-- Number of blocks tiling an axis of extent `dim` with block size `b`
(ceiling division), as used by the block-grid geometry. -/
def numBlocks (dim b : ℕ) : ℕ := (dim + b - 1) / b

/-- Extent of block `t` along an axis of extent `dim` with block size `b`. -/
def blockExtent (dim b t : ℕ) : ℕ := min b (dim - t * b)

lemma le_numBlocks_mul (n b : ℕ) (hb : 0 < b) : n ≤ numBlocks n b * b := by
  rcases Nat.eq_zero_or_pos n with h0 | h1
  · subst h0; exact Nat.zero_le _
  · have h := Nat.lt_mul_div_succ (n + b - 1) hb
    rw [Nat.mul_add, Nat.mul_one, Nat.mul_comm b ((n + b - 1) / b)] at h
    unfold numBlocks
    revert h
    generalize (n + b - 1) / b * b = X
    intro h
    omega

lemma sum_Ico_blocks (b : ℕ) (f : ℕ → ℤ) (n N : ℕ) :
    ∑ t in Finset.range N, ∑ k in Finset.Ico (t * b) (min ((t + 1) * b) n), f k
      = ∑ k in Finset.Ico 0 (min (N * b) n), f k := by
  induction N with
  | zero => simp
  | succ N ih =>
    rw [Finset.sum_range_succ, ih]
    rcases le_or_lt (N * b) n with h | h
    · rw [min_eq_left h]
      have h1 : N * b ≤ min ((N + 1) * b) n :=
        le_min (Nat.mul_le_mul (Nat.le_succ N) (le_refl b)) h
      exact Finset.sum_Ico_consecutive f (Nat.zero_le _) h1
    · have h2 : min (N * b) n = n := min_eq_right h.le
      have h3 : min ((N + 1) * b) n = n :=
        min_eq_right (le_trans h.le (Nat.mul_le_mul (Nat.le_succ N) (le_refl b)))
      rw [h2, h3]
      have he : Finset.Ico (N * b) n = ∅ := Finset.Ico_eq_empty (by omega)
      rw [he, Finset.sum_empty, add_zero]

/-- A blocked sum over every block of a tiled axis equals the plain sum over
the axis: the per-axis tiling invariant of the block grid. -/
lemma blocked_tile_sum (n b : ℕ) (hb : 0 < b) (f : ℕ → ℤ) :
    ∑ t in Finset.range (numBlocks n b), ∑ lk in Finset.range (blockExtent n b t), f (t * b + lk)
      = ∑ k in Finset.range n, f k := by
  have hinner : ∀ t, ∑ lk in Finset.range (blockExtent n b t), f (t * b + lk)
      = ∑ k in Finset.Ico (t * b) (min ((t + 1) * b) n), f k := by
    intro t
    rw [Finset.sum_Ico_eq_sum_range]
    have hext : min ((t + 1) * b) n - t * b = blockExtent n b t := by
      unfold blockExtent
      have ht : (t + 1) * b = t * b + b := by ring
      rw [ht]
      omega
    rw [hext]
  simp only [hinner]
  rw [sum_Ico_blocks, min_eq_right (le_numBlocks_mul n b hb), ← Finset.range_eq_Ico]

/-! ### C1: blocked matmul with the identity -/

/-- Modelled from the spec: dense value semantics of the `n × n` identity
array produced by `identity(n)` / `eye` (the `ArrayApplication.eye` kernel is
not under `src/`): ones on the main diagonal, zeros elsewhere. -/
def identityEntry (i k : ℕ) : ℤ := if i = k then 1 else 0

/-- Modelled from the spec: blocked contraction (`matmul`) of
`ComputeManager` (not under `src/`).  Operand `A` is blocked `(bi, bk)` and
operand `B` is blocked `(bk, bj)`; the contracted axis of extent `K` is
partitioned identically on both operands.  The output value at global
position `(i, j)` lies in output block `(i / bi, j / bj)` at local offsets
`(i % bi, j % bj)`; one partial product is accumulated per contraction block
`t`, in ascending block order, each partial product summing over the local
offsets `lk` of contraction block `t`. -/
def blockedMatmul (K bi bk bj : ℕ) (A B : ℕ → ℕ → ℤ) (i j : ℕ) : ℤ :=
  ∑ t in Finset.range (numBlocks K bk),
    ∑ lk in Finset.range (blockExtent K bk t),
      A (i / bi * bi + i % bi) (t * bk + lk) * B (t * bk + lk) (j / bj * bj + j % bj)

/-- C1: for every `n` and every `X` compatible for matrix multiplication with
the `n × n` identity (`X` has `n` rows, say `m` columns, and its row blocking
`bk` matches the identity's column blocking, as blocked contraction requires),
`matmul(identity(n), X)` equals `X` elementwise, for every choice of block
shape `(bi, bk)` for the identity and `(bk, bj)` for `X`. -/
theorem matmul_identity_eq (n m bi bk bj : ℕ) (hbk : 0 < bk)
    (X : ℕ → ℕ → ℤ) (i j : ℕ) (hi : i < n) (hj : j < m) :
    blockedMatmul n bi bk bj identityEntry X i j = X i j := by
  unfold blockedMatmul
  simp only [Nat.div_add_mod']
  rw [blocked_tile_sum n bk hbk (fun k => identityEntry i k * X k j)]
  unfold identityEntry
  have hsplit : ∀ k, (if i = k then (1 : ℤ) else 0) * X k j = if i = k then X k j else 0 := by
    intro k
    split <;> simp
  simp only [hsplit]
  rw [Finset.sum_ite_eq]
  simp [Finset.mem_range.mpr hi]

/-- Fixed test operand for the C1 witness. -/
def testX (a b : ℕ) : ℤ := a * 3 + b + 1

theorem matmul_identity_eq_witness :
    ((0 : ℕ) < 2 ∧ (1 : ℕ) < 4 ∧ (2 : ℕ) < 3
      ∧ blockedMatmul 4 2 2 2 identityEntry testX 1 2 = testX 1 2)
    ∧ ((0 : ℕ) < 3 ∧ (3 : ℕ) < 4 ∧ (1 : ℕ) < 3
      ∧ blockedMatmul 4 3 3 1 identityEntry testX 3 1 = testX 3 1) :=
  ⟨⟨by decide, by decide, by decide,
      matmul_identity_eq 4 3 2 2 2 (by decide) testX 1 2 (by decide) (by decide)⟩,
   ⟨by decide, by decide, by decide,
      matmul_identity_eq 4 3 3 3 1 (by decide) testX 3 1 (by decide) (by decide)⟩⟩

/-! ### C2: block-shape invariance of the axis-0 sum -/

/-- Modelled from the spec: two-phase blocked reduction computing `sum` over
axis 0 of an `R × C` array blocked `(br, bc)` (`ArrayApplication.sum` and the
`ComputeManager` reduction tree are not under `src/`).  Phase 1: each block
computes a local partial sum along axis 0.  Phase 2: partial results sharing
the same column-block coordinate are combined in ascending block-coordinate
order.  This gives the output value at column `j`, which lies in column block
`j / bc` at local offset `j % bc`. -/
def blockedSumAxis0 (R br bc : ℕ) (A : ℕ → ℕ → ℤ) (j : ℕ) : ℤ :=
  ∑ t in Finset.range (numBlocks R br),
    ∑ li in Finset.range (blockExtent R br t),
      A (t * br + li) (j / bc * bc + j % bc)

/-- Dense reference sum over axis 0, following the spec's words: the plain
elementwise sum of column `j`. -/
def denseSumAxis0 (R : ℕ) (A : ℕ → ℕ → ℤ) (j : ℕ) : ℤ :=
  ∑ i in Finset.range R, A i j

/-- C2: for the all-ones `(6, 6)` array, the blocked sum over axis 0 equals
the dense reference sum and yields `6` at every output position `j < 6`, for
every block shape `(br, bc)` (in particular `(2,2)`, `(3,3)`, `(6,6)`): the
blocked reduction's value is independent of the chosen block partitioning. -/
theorem sum_block_shape_invariant (br bc : ℕ) (hbr : 0 < br) (j : ℕ) (hj : j < 6) :
    blockedSumAxis0 6 br bc (fun _ _ => 1) j = denseSumAxis0 6 (fun _ _ => 1) j
    ∧ blockedSumAxis0 6 br bc (fun _ _ => 1) j = 6 := by
  have h : blockedSumAxis0 6 br bc (fun _ _ => 1) j = denseSumAxis0 6 (fun _ _ => 1) j := by
    unfold blockedSumAxis0 denseSumAxis0
    exact blocked_tile_sum 6 br hbr (fun _ => 1)
  refine ⟨h, ?_⟩
  rw [h]
  unfold denseSumAxis0
  simp

theorem sum_block_shape_invariant_witness :
    ((0 : ℕ) < 2 ∧ (0 : ℕ) < 6
      ∧ blockedSumAxis0 6 2 2 (fun _ _ => 1) 0 = 6)
    ∧ ((0 : ℕ) < 3 ∧ (5 : ℕ) < 6
      ∧ blockedSumAxis0 6 3 3 (fun _ _ => 1) 5 = 6)
    ∧ ((0 : ℕ) < 6 ∧ (2 : ℕ) < 6
      ∧ blockedSumAxis0 6 6 6 (fun _ _ => 1) 2 = 6) :=
  ⟨⟨by decide, by decide, (sum_block_shape_invariant 2 2 (by decide) 0 (by decide)).2⟩,
   ⟨by decide, by decide, (sum_block_shape_invariant 3 3 (by decide) 5 (by decide)).2⟩,
   ⟨by decide, by decide, (sum_block_shape_invariant 6 6 (by decide) 2 (by decide)).2⟩⟩

/-! ### C3: cyclic device grid -/

/-- Modelled from the spec: row-major flattening of a block coordinate over
the cluster shape, as performed by the cyclic placement policy of
`CyclicDeviceGrid` (`nums/core/grid/grid.py` is not under `src/`; only its
construction in `application_manager.create` is).  The stride of an axis is
the product of the extents of the following axes. -/
def rowMajorFlatten : List ℕ → List ℕ → ℕ
  | [], _ => 0
  | _ :: _, [] => 0
  | _ :: ds, c :: cs => c * ds.prod + rowMajorFlatten ds cs

/-- Modelled from the spec: `CyclicDeviceGrid.get_device` flattens the
coordinate row-major over the cluster shape and returns the device at
position `flat mod device_count` of the ordered device list. -/
def cyclicGetDevice (clusterShape : List ℕ) (devices : List ℕ) (coord : List ℕ) : Option ℕ :=
  devices[rowMajorFlatten clusterShape coord % devices.length]?

/-- All coordinates of the cluster grid of a given shape, in row-major
enumeration order. -/
def gridCoords : List ℕ → List (List ℕ)
  | [] => [[]]
  | d :: ds => (List.range d).flatMap fun i => (gridCoords ds).map fun c => i :: c

/-- Number of grid coordinates the cyclic policy assigns to the device at
position `r` of the device list, over all coordinates of the cluster grid. -/
def deviceLoad (clusterShape : List ℕ) (numDevices r : ℕ) : ℕ :=
  ((gridCoords clusterShape).map fun c => rowMajorFlatten clusterShape c % numDevices).count r

lemma range_mul_flatMap (P d : ℕ) :
    List.range (d * P) = (List.range d).flatMap fun i => (List.range P).map fun v => i * P + v := by
  induction d with
  | zero => simp
  | succ d ih =>
    have hd : (d + 1) * P = d * P + P := by ring
    rw [hd, List.range_add, ih, List.range_succ, List.flatMap_append]
    simp [Nat.add_comm]

lemma map_flatten_gridCoords :
    ∀ shape : List ℕ, (gridCoords shape).map (rowMajorFlatten shape) = List.range shape.prod := by
  intro shape
  induction shape with
  | nil => decide
  | cons d ds ih =>
    show ((List.range d).flatMap fun i => (gridCoords ds).map fun c => i :: c).map
        (rowMajorFlatten (d :: ds)) = List.range ((d :: ds).prod)
    rw [List.map_flatMap]
    have hmap : ∀ i : ℕ, ((gridCoords ds).map fun c => i :: c).map (rowMajorFlatten (d :: ds))
        = (List.range ds.prod).map fun v => i * ds.prod + v := by
      intro i
      rw [List.map_map, ← ih, List.map_map]
      rfl
    simp only [hmap]
    rw [List.prod_cons, ← range_mul_flatMap]

lemma count_map_mod_range (N : ℕ) (hN : 0 < N) (r : ℕ) (hr : r < N) :
    ∀ M : ℕ, ((List.range M).map (· % N)).count r
      = M / N + (if r < M % N then 1 else 0) := by
  intro M
  induction M with
  | zero => simp [Nat.lt_irrefl]
  | succ M ih =>
    rw [List.range_succ, List.map_append, List.count_append, ih]
    have hsingle : (List.map (· % N) [M]).count r = if M % N = r then 1 else 0 := by
      simp [List.count_cons]
    rw [hsingle]
    have hdm := Nat.div_add_mod M N
    have hmlt : M % N < N := Nat.mod_lt M hN
    rcases eq_or_ne (M % N + 1) N with hcase | hcase
    · have hsum : M + 1 = N * (M / N + 1) := by
        rw [Nat.mul_add, Nat.mul_one]
        omega
      have hdiv : (M + 1) / N = M / N + 1 := by
        rw [hsum, Nat.mul_div_cancel_left _ hN]
      have hmod : (M + 1) % N = 0 := by
        rw [hsum, Nat.mul_mod_right]
      rw [hdiv, hmod]
      split_ifs <;> omega
    · have hpair : (M + 1) / N = M / N ∧ (M + 1) % N = M % N + 1 := by
        rw [Nat.div_mod_unique hN]
        omega
      rw [hpair.1, hpair.2]
      split_ifs <;> omega

lemma deviceLoad_eq (shape : List ℕ) (N r : ℕ) (hN : 0 < N) (hr : r < N) :
    deviceLoad shape N r = shape.prod / N + (if r < shape.prod % N then 1 else 0) := by
  unfold deviceLoad
  have hcomp : ((gridCoords shape).map fun c => rowMajorFlatten shape c % N)
      = ((gridCoords shape).map (rowMajorFlatten shape)).map (· % N) := by
    rw [List.map_map]
    rfl
  rw [hcomp, map_flatten_gridCoords, count_map_mod_range N hN r hr]

/-- C3: `CyclicDeviceGrid.get_device` returns the device at position
`flat mod N` of the ordered device list, where `flat` is the row-major
flattening of the coordinate over the cluster shape; repeated calls with a
fixed coordinate return the same device (definitional for the pure mapping);
and over all coordinates of the cluster grid, the number of coordinates
assigned to any two device positions differs by at most 1. -/
theorem cyclic_grid_spec (clusterShape : List ℕ) (devices : List ℕ) (coord : List ℕ)
    (r1 r2 : ℕ) (h1 : r1 < devices.length) (h2 : r2 < devices.length) :
    cyclicGetDevice clusterShape devices coord
      = devices[rowMajorFlatten clusterShape coord % devices.length]?
    ∧ cyclicGetDevice clusterShape devices coord = cyclicGetDevice clusterShape devices coord
    ∧ deviceLoad clusterShape devices.length r1 ≤ deviceLoad clusterShape devices.length r2 + 1 := by
  have hN : 0 < devices.length := lt_of_le_of_lt (Nat.zero_le r1) h1
  refine ⟨rfl, rfl, ?_⟩
  rw [deviceLoad_eq clusterShape devices.length r1 hN h1,
    deviceLoad_eq clusterShape devices.length r2 hN h2]
  split_ifs <;> omega

theorem cyclic_grid_spec_witness :
    (0 : ℕ) < 3 ∧ (2 : ℕ) < 3
    ∧ (cyclicGetDevice [2, 2] [10, 11, 12] [1, 0]
        = ([10, 11, 12] : List ℕ)[rowMajorFlatten [2, 2] [1, 0] % 3]?
      ∧ cyclicGetDevice [2, 2] [10, 11, 12] [1, 0] = cyclicGetDevice [2, 2] [10, 11, 12] [1, 0]
      ∧ deviceLoad [2, 2] 3 0 ≤ deviceLoad [2, 2] 3 2 + 1) :=
  ⟨by decide, by decide,
    cyclic_grid_spec [2, 2] [10, 11, 12] [1, 0] 0 2 (by decide) (by decide)⟩

/-! ### C4: block-size selection -/

/-- Total number of blocks of the grid: the product over axes of the per-axis
block counts. -/
def blockCount (shape bs : List ℕ) : ℕ := (List.zipWith numBlocks shape bs).prod

/-- Byte size of one (full) block: element count times dtype width. -/
def blockBytes (bs : List ℕ) (dsize : ℕ) : ℕ := bs.prod * dsize

/-- Largest entry of a block shape (0 for the empty shape). -/
def listMax (bs : List ℕ) : ℕ := bs.foldl max 0

/-- Replace the first occurrence of `tgt` in a list by `v`. -/
def replaceFirst : List ℕ → ℕ → ℕ → List ℕ
  | [], _, _ => []
  | x :: xs, tgt, v => if x = tgt then v :: xs else x :: replaceFirst xs tgt v

/-- Halve (rounding up) the largest block-shape entry. -/
def splitLargest (bs : List ℕ) : List ℕ :=
  replaceFirst bs (listMax bs) ((listMax bs + 1) / 2)

/-- Modelled from the spec: the refinement loop of `compute_block_shape`
(`ArrayApplication.compute_block_shape` is not under `src/`).  Starting from
one block per axis covering the whole axis, repeatedly halve the largest
block axis until the total block count is at least the device count and the
block byte size fits the per-device memory budget, or every axis is already
fully split. -/
def shrink (fuel : ℕ) (shape bs : List ℕ) (target dsize budget : ℕ) : List ℕ :=
  match fuel with
  | 0 => bs
  | fuel + 1 =>
    if target ≤ blockCount shape bs ∧ blockBytes bs dsize ≤ budget then bs
    else if bs.all (fun b => b ≤ 1) then bs
    else shrink fuel shape (splitLargest bs) target dsize budget

/-- Modelled from the spec: `compute_block_shape(shape, dtype)` — deterministic
block-size selection given the shape, the dtype width `dsize`, the device
count `target` and the per-device memory budget. -/
def compute_block_shape (shape : List ℕ) (dsize target budget : ℕ) : List ℕ :=
  shrink (shape.sum + 1) shape shape target dsize budget

lemma replaceFirst_forall₂ {Q : ℕ → ℕ → Prop} :
    ∀ {bs shape : List ℕ}, List.Forall₂ Q bs shape → ∀ tgt v : ℕ,
      (∀ b s, Q b s → b = tgt → Q v s) →
      List.Forall₂ Q (replaceFirst bs tgt v) shape := by
  intro bs shape hf
  induction hf with
  | nil => intro tgt v _; exact List.Forall₂.nil
  | @cons b s bs' shape' hbs htl ih =>
    intro tgt v hv
    show List.Forall₂ Q (if b = tgt then v :: bs' else b :: replaceFirst bs' tgt v) (s :: shape')
    split
    · exact List.Forall₂.cons (hv b s hbs (by assumption)) htl
    · exact List.Forall₂.cons hbs (ih tgt v hv)

lemma splitLargest_forall₂ {bs shape : List ℕ}
    (hf : List.Forall₂ (fun b s => 1 ≤ b ∧ b ≤ s) bs shape) :
    List.Forall₂ (fun b s => 1 ≤ b ∧ b ≤ s) (splitLargest bs) shape := by
  apply replaceFirst_forall₂ hf
  intro b s hq heq
  rcases hq with ⟨hq1, hq2⟩
  rw [← heq]
  constructor <;> omega

lemma sum_replaceFirst (tgt v : ℕ) :
    ∀ bs : List ℕ, tgt ∈ bs → (replaceFirst bs tgt v).sum + tgt = bs.sum + v := by
  intro bs
  induction bs with
  | nil => intro h; cases h
  | cons x xs ih =>
    intro h
    show (if x = tgt then v :: xs else x :: replaceFirst xs tgt v).sum + tgt = (x :: xs).sum + v
    split
    · simp only [List.sum_cons]
      omega
    · have hx : tgt ∈ xs := by
        rcases List.mem_cons.mp h with h1 | h2
        · exact absurd h1.symm (by assumption)
        · exact h2
      have := ih hx
      simp only [List.sum_cons]
      omega

lemma foldl_max_eq_or_mem : ∀ (bs : List ℕ) (a : ℕ), bs.foldl max a = a ∨ bs.foldl max a ∈ bs := by
  intro bs
  induction bs with
  | nil => intro a; left; rfl
  | cons x xs ih =>
    intro a
    rcases ih (max a x) with h | h
    · rcases max_choice a x with hax | hax
      · left
        show xs.foldl max (max a x) = a
        rw [h, hax]
      · right
        show xs.foldl max (max a x) ∈ x :: xs
        rw [h, hax]
        exact List.mem_cons_self x xs
    · right
      exact List.mem_cons_of_mem x h

lemma listMax_mem {bs : List ℕ} (h : 0 < listMax bs) : listMax bs ∈ bs := by
  rcases foldl_max_eq_or_mem bs 0 with h0 | hm
  · exfalso
    have h0' : listMax bs = 0 := h0
    omega
  · exact hm

lemma foldl_max_init_le : ∀ (bs : List ℕ) (a : ℕ), a ≤ bs.foldl max a := by
  intro bs
  induction bs with
  | nil => intro a; exact le_refl a
  | cons x xs ih =>
    intro a
    exact le_trans (le_max_left a x) (ih (max a x))

lemma le_listMax : ∀ (bs : List ℕ) (a x : ℕ), x ∈ bs → x ≤ bs.foldl max a := by
  intro bs
  induction bs with
  | nil => intro a x h; cases h
  | cons y ys ih =>
    intro a x h
    rcases List.mem_cons.mp h with h1 | h2
    · subst h1
      exact le_trans (le_max_right a x) (foldl_max_init_le ys (max a x))
    · exact ih (max a y) x h2

lemma blockCount_all_one {bs shape : List ℕ}
    (hf : List.Forall₂ (fun b s => 1 ≤ b ∧ b ≤ s) bs shape)
    (hall : ∀ b ∈ bs, b ≤ 1) : blockCount shape bs = shape.prod := by
  induction hf with
  | nil => rfl
  | @cons b s bs' shape' hbs _ ih =>
    have hb1 : b = 1 := le_antisymm (hall b (List.mem_cons_self b bs')) hbs.1
    have hih : (List.zipWith numBlocks shape' bs').prod = shape'.prod :=
      ih (fun x hx => hall x (List.mem_cons_of_mem b hx))
    have hnb : numBlocks s 1 = s := by
      unfold numBlocks
      omega
    show (List.zipWith numBlocks (s :: shape') (b :: bs')).prod = (s :: shape').prod
    rw [List.zipWith_cons_cons, List.prod_cons, List.prod_cons, hih, hb1, hnb]

lemma shrink_forall₂ (shape : List ℕ) (target dsize budget : ℕ) :
    ∀ (fuel : ℕ) (bs : List ℕ), List.Forall₂ (fun b s => 1 ≤ b ∧ b ≤ s) bs shape →
      List.Forall₂ (fun b s => 1 ≤ b ∧ b ≤ s) (shrink fuel shape bs target dsize budget) shape := by
  intro fuel
  induction fuel with
  | zero => intro bs hf; exact hf
  | succ fuel ih =>
    intro bs hf
    show List.Forall₂ _ (if target ≤ blockCount shape bs ∧ blockBytes bs dsize ≤ budget then bs
      else if bs.all (fun b => b ≤ 1) then bs
      else shrink fuel shape (splitLargest bs) target dsize budget) shape
    split
    · exact hf
    · split
      · exact hf
      · exact ih (splitLargest bs) (splitLargest_forall₂ hf)

lemma shrink_count (shape : List ℕ) (target dsize budget : ℕ) (hperm : target ≤ shape.prod) :
    ∀ (fuel : ℕ) (bs : List ℕ), List.Forall₂ (fun b s => 1 ≤ b ∧ b ≤ s) bs shape →
      bs.sum < fuel → target ≤ blockCount shape (shrink fuel shape bs target dsize budget) := by
  intro fuel
  induction fuel with
  | zero => intro bs _ h; omega
  | succ fuel ih =>
    intro bs hf hsum
    show target ≤ blockCount shape (if target ≤ blockCount shape bs ∧ blockBytes bs dsize ≤ budget
      then bs
      else if bs.all (fun b => b ≤ 1) then bs
      else shrink fuel shape (splitLargest bs) target dsize budget)
    split
    · exact (by assumption : target ≤ blockCount shape bs ∧ _).1
    · split
      · rename_i hall
        have hall' : ∀ b ∈ bs, b ≤ 1 := by
          intro b hb
          have hd := List.all_eq_true.mp hall b hb
          exact of_decide_eq_true hd
        rw [blockCount_all_one hf hall']
        exact hperm
      · rename_i hnall
        have hex : ∃ x ∈ bs, 2 ≤ x := by
          by_contra hno
          push_neg at hno
          apply hnall
          apply List.all_eq_true.mpr
          intro b hb
          have := hno b hb
          exact decide_eq_true (by omega)
        rcases hex with ⟨x, hxmem, hx2⟩
        have hmax2 : 2 ≤ listMax bs := le_trans hx2 (le_listMax bs 0 x hxmem)
        have hmem : listMax bs ∈ bs := listMax_mem (by omega)
        have hsum' := sum_replaceFirst (listMax bs) ((listMax bs + 1) / 2) bs hmem
        have hlt : (splitLargest bs).sum < bs.sum := by
          unfold splitLargest
          omega
        exact ih (splitLargest bs) (splitLargest_forall₂ hf) (by omega)

/-- C4: `compute_block_shape` returns a block shape of the same arity as the
(positive-entry) shape, each entry at least 1 and at most the corresponding
shape entry, with total block count at least the device count whenever the
shape permits it (`target ≤ shape.prod`); the result is deterministic given
shape, dtype width, device count, and budget — definitionally, since the
model is a pure function of exactly those inputs (last conjunct). -/
theorem compute_block_shape_spec (shape : List ℕ) (dsize target budget : ℕ)
    (hpos : ∀ s ∈ shape, 1 ≤ s) :
    (compute_block_shape shape dsize target budget).length = shape.length
    ∧ List.Forall₂ (fun b s => 1 ≤ b ∧ b ≤ s) (compute_block_shape shape dsize target budget) shape
    ∧ (target ≤ shape.prod →
        target ≤ blockCount shape (compute_block_shape shape dsize target budget))
    ∧ compute_block_shape shape dsize target budget
        = compute_block_shape shape dsize target budget := by
  have hinit : List.Forall₂ (fun b s => 1 ≤ b ∧ b ≤ s) shape shape :=
    List.forall₂_same.mpr (fun x hx => ⟨hpos x hx, le_refl x⟩)
  have hf := shrink_forall₂ shape target dsize budget (shape.sum + 1) shape hinit
  refine ⟨hf.length_eq, hf, ?_, rfl⟩
  intro hperm
  exact shrink_count shape target dsize budget hperm (shape.sum + 1) shape hinit (Nat.lt_succ_self _)

theorem compute_block_shape_spec_witness :
    (∀ s ∈ ([4, 4] : List ℕ), 1 ≤ s)
    ∧ ((compute_block_shape [4, 4] 8 4 1000000).length = ([4, 4] : List ℕ).length
      ∧ List.Forall₂ (fun b s => 1 ≤ b ∧ b ≤ s) (compute_block_shape [4, 4] 8 4 1000000) [4, 4]
      ∧ ((4 : ℕ) ≤ ([4, 4] : List ℕ).prod →
          4 ≤ blockCount [4, 4] (compute_block_shape [4, 4] 8 4 1000000))
      ∧ compute_block_shape [4, 4] 8 4 1000000 = compute_block_shape [4, 4] 8 4 1000000) :=
  ⟨by decide, compute_block_shape_spec [4, 4] 8 4 1000000 (by decide)⟩

/-! ### C5: split -/

/-- A distributed array for the `split` embedding: global shape plus dense
value semantics (block records do not matter for what C5 states). -/
structure DArr where
  shape : List ℕ
  val : List ℕ → ℤ

/-- Modelled from the spec: basic slicing `ary[..., slice(start, stop, 1), ...]`
on one axis (`BlockArray.__getitem__` is not under `src/`): the sliced axis
has extent `stop - start` and indices are shifted by `start`. -/
def sliceAxis (a : DArr) (axis start stop : ℕ) : DArr :=
  { shape := a.shape.set axis (stop - start)
    val := fun idx => a.val (idx.set axis (idx.getD axis 0 + start)) }

/-- Embeds `split` of `nums/numpy/api.py`: read `dim_total = ary.shape[axis]`,
raise a `ValueError` if it is not divisible by `indices_or_sections`
(synchronously, before any slice is built), else slice
`[i, i + dim_partial)` for `i = 0, dim_partial, 2·dim_partial, …` as in the
Python loop `for i in range(0, dim_total, dim_partial)`. -/
def splitApi (a : DArr) (sections axis : ℕ) : Except String (List DArr) :=
  if a.shape.getD axis 0 % sections ≠ 0 then
    Except.error "ary axis cannot be split into equal arrays."
  else
    Except.ok ((List.range' 0
        (numBlocks (a.shape.getD axis 0) (a.shape.getD axis 0 / sections))
        (a.shape.getD axis 0 / sections)).map
      fun start => sliceAxis a axis start (start + a.shape.getD axis 0 / sections))

/-- C5: for every array, every positive `k` and every axis (with a positive
extent, as the data-model invariant guarantees): if the axis extent is not
divisible by `k`, `split` returns the divisibility error synchronously —
no slice is produced; otherwise it returns exactly `k` arrays, the `i`-th
being the slice of `ary` covering the `i`-th run of `shape[axis] / k`
consecutive indices along `axis`, in ascending order. -/
theorem split_spec (a : DArr) (k axis : ℕ) (hk : 0 < k)
    (hdim : 0 < a.shape.getD axis 0) :
    (¬ k ∣ a.shape.getD axis 0 →
      splitApi a k axis = Except.error "ary axis cannot be split into equal arrays.")
    ∧ (k ∣ a.shape.getD axis 0 →
      ∃ parts : List DArr, splitApi a k axis = Except.ok parts
        ∧ parts.length = k
        ∧ ∀ i : ℕ, i < k →
            parts[i]? = some (sliceAxis a axis (i * (a.shape.getD axis 0 / k))
              (i * (a.shape.getD axis 0 / k) + a.shape.getD axis 0 / k))) := by
  have hiff : a.shape.getD axis 0 % k = 0 ↔ k ∣ a.shape.getD axis 0 :=
    ⟨Nat.dvd_of_mod_eq_zero, Nat.mod_eq_zero_of_dvd⟩
  constructor
  · intro hnd
    unfold splitApi
    rw [if_pos (fun hmod => hnd (hiff.mp hmod))]
  · intro hdvd
    have hmod : a.shape.getD axis 0 % k = 0 := hiff.mpr hdvd
    have hqk : a.shape.getD axis 0 / k * k = a.shape.getD axis 0 := Nat.div_mul_cancel hdvd
    have hqpos : 0 < a.shape.getD axis 0 / k :=
      Nat.div_pos (Nat.le_of_dvd hdim hdvd) hk
    have hnb : numBlocks (a.shape.getD axis 0) (a.shape.getD axis 0 / k) = k := by
      unfold numBlocks
      have h1 : a.shape.getD axis 0 + a.shape.getD axis 0 / k - 1
          = (a.shape.getD axis 0 / k - 1) + a.shape.getD axis 0 / k * k := by
        omega
      rw [h1, Nat.add_mul_div_left _ _ hqpos, Nat.div_eq_of_lt (by omega), Nat.zero_add]
    unfold splitApi
    rw [if_neg (fun hne => hne hmod)]
    refine ⟨_, rfl, ?_, ?_⟩
    · rw [List.length_map, List.length_range', hnb]
    · intro i hi
      rw [List.getElem?_map, hnb, List.getElem?_range' _ _ hi]
      have harg : 0 + a.shape.getD axis 0 / k * i = i * (a.shape.getD axis 0 / k) := by
        ring
      simp only [Option.map_some', harg]

theorem split_spec_witness :
    (0 : ℕ) < 3 ∧ 0 < (DArr.mk [6, 2] (fun _ => 0)).shape.getD 0 0
    ∧ ((3 : ℕ) ∣ (DArr.mk [6, 2] (fun _ => 0)).shape.getD 0 0 →
      ∃ parts : List DArr,
        splitApi (DArr.mk [6, 2] (fun _ => 0)) 3 0 = Except.ok parts
        ∧ parts.length = 3
        ∧ ∀ i : ℕ, i < 3 →
            parts[i]? = some (sliceAxis (DArr.mk [6, 2] (fun _ => 0)) 0
              (i * ((DArr.mk [6, 2] (fun _ => 0)).shape.getD 0 0 / 3))
              (i * ((DArr.mk [6, 2] (fun _ => 0)).shape.getD 0 0 / 3)
                + (DArr.mk [6, 2] (fun _ => 0)).shape.getD 0 0 / 3))) :=
  ⟨by decide, by decide,
    (split_spec (DArr.mk [6, 2] (fun _ => 0)) 3 0 (by decide) (by decide)).2⟩

/-! ### C6: concatenate -/

/-- One step of the mode fold: keep the candidate with the larger count in
`l`; on equal counts keep the smaller value (the tie-breaking rule of
`scipy.stats.mode`, which returns the smallest most-common value). -/
def modeBest (l : List ℕ) (best y : ℕ) : ℕ :=
  if l.count best < l.count y ∨ (l.count y = l.count best ∧ y < best) then y else best

/-- The most common value of a list (0 for the empty list), as
`scipy.stats.mode(...).mode.item()` computes it for `concatenate`. -/
def mostCommon (l : List ℕ) : ℕ :=
  match l with
  | [] => 0
  | x :: xs => xs.foldl (modeBest (x :: xs)) x

/-- Embeds `concatenate` of `nums/numpy/api.py`: select
`axis_block_size = mode([arr.block_shape[axis] for arr in arrays])` and pass
exactly `(axis, axis_block_size)` to the underlying
`app.concatenate` (whose re-chunking of disagreeing inputs is downstream of
this selection). -/
def concatenateApi (blockShapes : List (List ℕ)) (axis : ℕ) : ℕ × ℕ :=
  (axis, mostCommon (blockShapes.map fun bsh => bsh.getD axis 0))

lemma foldl_modeBest (l : List ℕ) :
    ∀ (ys : List ℕ) (b : ℕ),
      (ys.foldl (modeBest l) b = b ∨ ys.foldl (modeBest l) b ∈ ys)
      ∧ l.count b ≤ l.count (ys.foldl (modeBest l) b)
      ∧ ∀ y ∈ ys, l.count y ≤ l.count (ys.foldl (modeBest l) b) := by
  intro ys
  induction ys with
  | nil =>
    intro b
    exact ⟨Or.inl rfl, le_refl _, fun y hy => absurd hy (List.not_mem_nil y)⟩
  | cons y0 ys ih =>
    intro b
    have hb' := ih (modeBest l b y0)
    have hchoice : modeBest l b y0 = b ∨ modeBest l b y0 = y0 := by
      unfold modeBest
      split
      · exact Or.inr rfl
      · exact Or.inl rfl
    have hcb : l.count b ≤ l.count (modeBest l b y0) := by
      unfold modeBest
      split
      · rename_i h
        rcases h with h | ⟨h, _⟩ <;> omega
      · exact le_refl _
    have hcy : l.count y0 ≤ l.count (modeBest l b y0) := by
      unfold modeBest
      split
      · exact le_refl _
      · rename_i h
        push_neg at h
        exact h.1
    refine ⟨?_, le_trans hcb hb'.2.1, ?_⟩
    · rcases hb'.1 with he | hm
      · rcases hchoice with h1 | h1
        · exact Or.inl (by rw [List.foldl_cons, he, h1])
        · refine Or.inr ?_
          rw [List.foldl_cons, he, h1]
          exact List.mem_cons_self y0 ys
      · exact Or.inr (List.mem_cons_of_mem y0 hm)
    · intro y hy
      rcases List.mem_cons.mp hy with h1 | h2
      · subst h1
        exact le_trans hcy hb'.2.1
      · exact hb'.2.2 y h2

/-- C6: for every non-empty list of input arrays and every axis,
`concatenate` selects a single on-axis block size equal to the most common
value of `block_shape[axis]` among the inputs — it is one of the input
values and no input value occurs more often — and passes exactly that size
(with the axis) to the underlying concatenation, which re-chunks inputs
whose on-axis blocking disagrees with it. -/
theorem concatenate_mode (blockShapes : List (List ℕ)) (axis : ℕ)
    (hne : blockShapes ≠ []) :
    (concatenateApi blockShapes axis).2
        = mostCommon (blockShapes.map (fun bsh => bsh.getD axis 0))
    ∧ mostCommon (blockShapes.map (fun bsh => bsh.getD axis 0))
        ∈ blockShapes.map (fun bsh => bsh.getD axis 0)
    ∧ ∀ x ∈ blockShapes.map (fun bsh => bsh.getD axis 0),
        (blockShapes.map (fun bsh => bsh.getD axis 0)).count x
          ≤ (blockShapes.map (fun bsh => bsh.getD axis 0)).count
              (mostCommon (blockShapes.map (fun bsh => bsh.getD axis 0))) := by
  refine ⟨rfl, ?_⟩
  rcases hs : blockShapes.map (fun bsh => bsh.getD axis 0) with _ | ⟨x, xs⟩
  · have hnil : blockShapes = [] := by simpa using hs
    exact absurd hnil hne
  · rw [hs]
    have hfold := foldl_modeBest (x :: xs) xs x
    have hmode : mostCommon (x :: xs) = xs.foldl (modeBest (x :: xs)) x := rfl
    constructor
    · rw [hmode]
      rcases hfold.1 with he | hm
      · rw [he]
        exact List.mem_cons_self x xs
      · exact List.mem_cons_of_mem x hm
    · intro y hy
      rw [hmode]
      rcases List.mem_cons.mp hy with h1 | h2
      · rw [h1]
        exact hfold.2.1
      · exact hfold.2.2 y h2

theorem concatenate_mode_witness :
    ([[2, 4], [3, 4], [2, 5]] : List (List ℕ)) ≠ []
    ∧ ((concatenateApi [[2, 4], [3, 4], [2, 5]] 0).2
        = mostCommon (([[2, 4], [3, 4], [2, 5]] : List (List ℕ)).map (fun bsh => bsh.getD 0 0))
      ∧ mostCommon (([[2, 4], [3, 4], [2, 5]] : List (List ℕ)).map (fun bsh => bsh.getD 0 0))
          ∈ ([[2, 4], [3, 4], [2, 5]] : List (List ℕ)).map (fun bsh => bsh.getD 0 0)
      ∧ ∀ x ∈ ([[2, 4], [3, 4], [2, 5]] : List (List ℕ)).map (fun bsh => bsh.getD 0 0),
          (([[2, 4], [3, 4], [2, 5]] : List (List ℕ)).map (fun bsh => bsh.getD 0 0)).count x
            ≤ (([[2, 4], [3, 4], [2, 5]] : List (List ℕ)).map (fun bsh => bsh.getD 0 0)).count
                (mostCommon (([[2, 4], [3, 4], [2, 5]] : List (List ℕ)).map
                  (fun bsh => bsh.getD 0 0)))) :=
  ⟨by decide, concatenate_mode [[2, 4], [3, 4], [2, 5]] 0 (by decide)⟩

/-! ### C7: loadtxt fallback -/

/-- A distributed array carrying its block-shape metadata, for the `loadtxt`
embedding. -/
structure BArr where
  shape : List ℕ
  blockShape : List ℕ
  val : List ℕ → ℤ

/-- `BlockArray.reshape(block_shape=...)`: same shape and values, new block
shape (modelled from the spec's shape-transform description; the class is
not under `src/`). -/
def reshapeBS (a : BArr) (bs : List ℕ) : BArr := { a with blockShape := bs }

/-- Embeds `loadtxt` of `nums/numpy/api.py`.  The distributed ingestion of
the `try` block (`app.loadtxt`) is abstracted as an `Except`-valued input;
the local fallback parse (`np.loadtxt`) as `localShape`/`localVal`.  On
success the ingested array is re-blocked to the computed block shape; on any
exception the function warns (first component `true`) and returns the
locally parsed data as a distributed array with the block shape computed for
its shape and dtype. -/
def loadtxtApi (ingest : Except String BArr) (dsize target budget : ℕ)
    (localShape : List ℕ) (localVal : List ℕ → ℤ) : Bool × BArr :=
  match ingest with
  | Except.ok ba => (false, reshapeBS ba (compute_block_shape ba.shape dsize target budget))
  | Except.error _ =>
    (true, { shape := localShape
             blockShape := compute_block_shape localShape dsize target budget
             val := localVal })

/-- C7: whenever the distributed ingestion fails with any exception `e`,
`loadtxt` does not propagate it: it warns (first component `true`) and
returns the locally parsed data as a distributed array whose block shape is
computed from the local data's shape and dtype. -/
theorem loadtxt_fallback (e : String) (dsize target budget : ℕ)
    (localShape : List ℕ) (localVal : List ℕ → ℤ) :
    loadtxtApi (Except.error e) dsize target budget localShape localVal
      = (true, { shape := localShape
                 blockShape := compute_block_shape localShape dsize target budget
                 val := localVal }) := rfl

/-! ### C8 / C9: application-manager lifecycle

`nums/core/application_manager.py` keeps two module globals: `_instance`
(the `ArrayApplication`, here identified by a numeric id) and
`_call_on_create` (the ordered hook list, hooks identified by numeric ids).
The state machine below embeds exactly its public functions; operations with
observable calls additionally return the list of `(hook, app)` invocations
performed. -/

structure AMState where
  inst : Option ℕ
  nextId : ℕ
  hooks : List ℕ

/-- `is_initialized()`: whether `_instance` is set. -/
def is_initialized (s : AMState) : Bool := s.inst.isSome

/-- Construction of a fresh `ArrayApplication` (the body of `create()` after
its guard): returns the new app and consumes a fresh id. -/
def freshApp (s : AMState) : ℕ × AMState := (s.nextId, { s with nextId := s.nextId + 1 })

/-- `create()`: raises if `_instance` is already set (leaving it unchanged),
else builds and returns a fresh application.  Note that `create()` itself
does not assign `_instance`; `instance()` does. -/
def create (s : AMState) : Except String ℕ × AMState :=
  match s.inst with
  | some _ => (Except.error "create() called more than once.", s)
  | none =>
    let r := freshApp s
    (Except.ok r.1, r.2)

/-- `instance()`: lazily initializes.  If `_instance` is set, return it
unchanged with no hook invocations; else build a fresh application via the
`create()` body, assign `_instance`, and invoke every registered hook on it
in registration order. -/
def instanceOp (s : AMState) : ℕ × AMState × List (ℕ × ℕ) :=
  match s.inst with
  | some a => (a, s, [])
  | none =>
    let r := freshApp s
    (r.1, { r.2 with inst := some r.1 }, s.hooks.map (fun h => (h, r.1)))

/-- `destroy()`: no-op when no instance exists, else clears `_instance`
(the hook list is kept). -/
def destroy (s : AMState) : AMState :=
  match s.inst with
  | none => s
  | some _ => { s with inst := none }

/-- `call_on_create(func)`: always append the hook to `_call_on_create`
(so it survives destroy/create cycles); if the app is initialized, invoke
the hook immediately on the current instance. -/
def call_on_create (h : ℕ) (s : AMState) : AMState × List (ℕ × ℕ) :=
  match s.inst with
  | some a => ({ s with hooks := s.hooks ++ [h] }, [(h, a)])
  | none => ({ s with hooks := s.hooks ++ [h] }, [])

/-- C8: the application singleton is created at most once per lifecycle —
while an instance `a` exists, `instance()` returns the identical `a` with
the state unchanged and no hook invocations (no reconstruction), and
`create()` raises leaving the state unchanged; `destroy()` with no instance
is a no-op; after `destroy()`, `is_initialized()` is `false`, and a
subsequent `instance()` builds a fresh application and installs it. -/
theorem singleton_lifecycle (s : AMState) (a : ℕ) :
    (s.inst = some a → instanceOp s = (a, s, []))
    ∧ (s.inst = some a → create s = (Except.error "create() called more than once.", s))
    ∧ (s.inst = none → destroy s = s)
    ∧ is_initialized (destroy s) = false
    ∧ (instanceOp (destroy s)).1 = (destroy s).nextId
    ∧ (instanceOp (destroy s)).2.1.inst = some (instanceOp (destroy s)).1 := by
  refine ⟨fun h => ?_, fun h => ?_, fun h => ?_, ?_, ?_, ?_⟩
  · unfold instanceOp
    rw [h]
  · unfold create
    rw [h]
  · unfold destroy
    rw [h]
  all_goals cases hs : s.inst <;> simp [destroy, is_initialized, instanceOp, freshApp, hs]

theorem singleton_lifecycle_witness :
    ((AMState.mk (some 7) 8 [1, 2]).inst = some 7
      → instanceOp (AMState.mk (some 7) 8 [1, 2]) = (7, AMState.mk (some 7) 8 [1, 2], []))
    ∧ ((AMState.mk (some 7) 8 [1, 2]).inst = some 7
      → create (AMState.mk (some 7) 8 [1, 2])
          = (Except.error "create() called more than once.", AMState.mk (some 7) 8 [1, 2]))
    ∧ ((AMState.mk (some 7) 8 [1, 2]).inst = none
      → destroy (AMState.mk (some 7) 8 [1, 2]) = AMState.mk (some 7) 8 [1, 2])
    ∧ is_initialized (destroy (AMState.mk (some 7) 8 [1, 2])) = false
    ∧ (instanceOp (destroy (AMState.mk (some 7) 8 [1, 2]))).1
        = (destroy (AMState.mk (some 7) 8 [1, 2])).nextId
    ∧ (instanceOp (destroy (AMState.mk (some 7) 8 [1, 2]))).2.1.inst
        = some (instanceOp (destroy (AMState.mk (some 7) 8 [1, 2]))).1 :=
  singleton_lifecycle (AMState.mk (some 7) 8 [1, 2]) 7

/-- C9: hooks registered via `call_on_create` persist across destroy/create
cycles — registration always appends to the hook list, a hook registered
while initialized is additionally invoked immediately on the current
instance (and not invoked when uninitialized), `destroy()` keeps the hook
list, and each time `instance()` creates a new application every registered
hook is invoked on it, in registration order. -/
theorem hooks_persist (s : AMState) (h a : ℕ) :
    ((call_on_create h s).1.hooks = s.hooks ++ [h])
    ∧ (s.inst = some a → (call_on_create h s).2 = [(h, a)])
    ∧ (s.inst = none → (call_on_create h s).2 = [])
    ∧ ((destroy s).hooks = s.hooks)
    ∧ (s.inst = none →
        (instanceOp s).2.2 = s.hooks.map (fun g => (g, (instanceOp s).1))) := by
  refine ⟨?_, fun hi => ?_, fun hi => ?_, ?_, fun hi => ?_⟩
  · cases hs : s.inst <;> simp [call_on_create, hs]
  · unfold call_on_create
    rw [hi]
  · unfold call_on_create
    rw [hi]
  · cases hs : s.inst <;> simp [destroy, hs]
  · unfold instanceOp
    rw [hi]

theorem hooks_persist_witness :
    ((call_on_create 9 (AMState.mk none 4 [1, 2])).1.hooks
        = (AMState.mk none 4 [1, 2]).hooks ++ [9])
    ∧ ((AMState.mk none 4 [1, 2]).inst = some 3
      → (call_on_create 9 (AMState.mk none 4 [1, 2])).2 = [(9, 3)])
    ∧ ((AMState.mk none 4 [1, 2]).inst = none
      → (call_on_create 9 (AMState.mk none 4 [1, 2])).2 = [])
    ∧ ((destroy (AMState.mk none 4 [1, 2])).hooks = (AMState.mk none 4 [1, 2]).hooks)
    ∧ ((AMState.mk none 4 [1, 2]).inst = none →
        (instanceOp (AMState.mk none 4 [1, 2])).2.2
          = (AMState.mk none 4 [1, 2]).hooks.map
              (fun g => (g, (instanceOp (AMState.mk none 4 [1, 2])).1))) :=
  hooks_persist (AMState.mk none 4 [1, 2]) 9 3

/-! ### C10: argmax vs argmin rank restriction -/

/-- Embeds `argmax` of `nums/numpy/api.py`: raise `NotImplementedError` when
the input has more than one dimension, before the `out` check and before any
`argop` dispatch; otherwise (with `out` unset) dispatch the `argmax`
kernel. -/
def argmaxApi (shape : List ℕ) (hasOut : Bool) : Except String (String × List ℕ) :=
  if 1 < shape.length then
    Except.error "argmax currently only supports one-dimensional arrays."
  else if hasOut then
    Except.error "out is currently not supported."
  else
    Except.ok ("argmax", shape)

/-- Embeds `argmin` of `nums/numpy/api.py`: no dimensionality check — with
`out` unset it dispatches the `argmin` kernel for arrays of any rank. -/
def argminApi (shape : List ℕ) (hasOut : Bool) : Except String (String × List ℕ) :=
  if hasOut then
    Except.error "out is currently not supported."
  else
    Except.ok ("argmin", shape)

/-- C10: at the public interface, `argmax` raises `NotImplementedError` for
every input of rank greater than one, before dispatching any work, whereas
`argmin` imposes no such restriction and dispatches for the same input. -/
theorem argmax_rank_restriction (shape : List ℕ) (hrank : 1 < shape.length) :
    argmaxApi shape false
      = Except.error "argmax currently only supports one-dimensional arrays."
    ∧ argminApi shape false = Except.ok ("argmin", shape) := by
  constructor
  · unfold argmaxApi
    rw [if_pos hrank]
  · rfl

theorem argmax_rank_restriction_witness :
    1 < ([2, 2] : List ℕ).length
    ∧ (argmaxApi [2, 2] false
        = Except.error "argmax currently only supports one-dimensional arrays."
      ∧ argminApi [2, 2] false = Except.ok ("argmin", [2, 2])) :=
  ⟨by decide, argmax_rank_restriction [2, 2] (by decide)⟩

end Nums
